import Mathlib

/-!
Shallow embedding of the `oplog` crate (MongoDB oplog tailing library).

Source files embedded:
* `src/operation.rs` — the `Operation` enum and the decoder `Operation::new`
  together with its helpers `from_noop`, `from_insert`, `from_update`,
  `from_delete`, `from_command` and `from_bson`.
* `src/oplog.rs` — the per-record step of `Oplog::stream`.
* `src/lib.rs` — the `Error` type and the filter construction of
  `subscribe`.

BSON values are modelled by the inductive `Bson`; a BSON `Document` is an
ordered association list of key/value pairs, as in the `bson` crate, where
`get` returns the value of the (first) entry with the given key and `insert`
replaces the value of an existing key in place or appends a new entry.
Machine integers (`i64` entry ids) are modelled by `Int`; BSON datetimes by
their millisecond value (`Int`).
-/

/-- A BSON value (the fragment of `mongodb::bson::Bson` exercised by the
crate: strings, 32/64-bit integers, datetimes, booleans, embedded documents
and arrays). -/
inductive Bson where
  | str : String → Bson
  | int32 : Int → Bson
  | int64 : Int → Bson
  | datetime : Int → Bson
  | boolean : Bool → Bson
  | document : List (String × Bson) → Bson
  | array : List Bson → Bson

/-- A BSON document: an ordered list of key/value entries
(`mongodb::bson::Document`). -/
abbrev BDoc := List (String × Bson)

/-- Rust `mongodb::bson::document::ValueAccessError`: a key is absent, or present
with an unexpected BSON type. -/
inductive ValueAccessError where
  | NotPresent
  | UnexpectedType
deriving DecidableEq, Repr

/-- Rust `crate::Error` from `src/lib.rs`: the possible error conditions when
tailing an oplog.  `Database` wraps a driver-level error (modelled by its
message). -/
inductive Error where
  | Database : String → Error
  | MissingField : ValueAccessError → Error
  | UnknownOperation : String → Error
  | InvalidOperation : Error
deriving DecidableEq, Repr

/-- Lookup of a key in a document, returning the value of the first entry
with that key (`Document::get`). -/
def getVal : BDoc → String → Option Bson
  | [], _ => none
  | (k, v) :: rest, key => if k = key then some v else getVal rest key

/-- Rust `Document::get_str`: the value at `key` as a string. -/
def get_str (d : BDoc) (key : String) : Except ValueAccessError String :=
  match getVal d key with
  | some (.str s) => .ok s
  | some _ => .error .UnexpectedType
  | none => .error .NotPresent

/-- Rust `Document::get_i64`: the value at `key` as a 64-bit integer. -/
def get_i64 (d : BDoc) (key : String) : Except ValueAccessError Int :=
  match getVal d key with
  | some (.int64 n) => .ok n
  | some _ => .error .UnexpectedType
  | none => .error .NotPresent

/-- Rust `Document::get_datetime`: the value at `key` as a datetime. -/
def get_datetime (d : BDoc) (key : String) : Except ValueAccessError Int :=
  match getVal d key with
  | some (.datetime t) => .ok t
  | some _ => .error .UnexpectedType
  | none => .error .NotPresent

/-- Rust `Document::get_document`: the value at `key` as an embedded document. -/
def get_document (d : BDoc) (key : String) : Except ValueAccessError BDoc :=
  match getVal d key with
  | some (.document o) => .ok o
  | some _ => .error .UnexpectedType
  | none => .error .NotPresent

/-- Rust `Document::get_array`: the value at `key` as an array. -/
def get_array (d : BDoc) (key : String) : Except ValueAccessError (List Bson) :=
  match getVal d key with
  | some (.array a) => .ok a
  | some _ => .error .UnexpectedType
  | none => .error .NotPresent

/-- Rust `Document::insert`: replace the value of an existing key in place, or
append a new entry at the end. -/
def insertVal : BDoc → String → Bson → BDoc
  | [], key, v => [(key, v)]
  | (k, w) :: rest, key, v =>
    if k = key then (k, v) :: rest else (k, w) :: insertVal rest key v

/-- Rust `oplog::Operation` from `src/operation.rs`: a MongoDB oplog operation. -/
inductive Operation where
  | Noop (id : Int) (timestamp : Int) (message : String)
  | Insert (id : Int) (timestamp : Int) («namespace» : String) (document : BDoc)
  | Update (id : Int) (timestamp : Int) («namespace» : String) (query : BDoc) (update : BDoc)
  | Delete (id : Int) (timestamp : Int) («namespace» : String) (query : BDoc)
  | Command (id : Int) (timestamp : Int) («namespace» : String) (command : BDoc)
  | ApplyOps (id : Int) (timestamp : Int) («namespace» : String) (operations : List Operation)

namespace Operation

/-- Rust `Operation::from_noop`. -/
def from_noop (d : BDoc) : Except Error Operation :=
  match get_i64 d "h" with
  | .error e => .error (.MissingField e)
  | .ok h =>
  match get_datetime d "ts" with
  | .error e => .error (.MissingField e)
  | .ok ts =>
  match get_document d "o" with
  | .error e => .error (.MissingField e)
  | .ok o =>
  match get_str o "msg" with
  | .error e => .error (.MissingField e)
  | .ok msg => .ok (.Noop h ts msg)

/-- Rust `Operation::from_insert`. -/
def from_insert (d : BDoc) : Except Error Operation :=
  match get_i64 d "h" with
  | .error e => .error (.MissingField e)
  | .ok h =>
  match get_datetime d "ts" with
  | .error e => .error (.MissingField e)
  | .ok ts =>
  match get_str d "ns" with
  | .error e => .error (.MissingField e)
  | .ok ns =>
  match get_document d "o" with
  | .error e => .error (.MissingField e)
  | .ok o => .ok (.Insert h ts ns o)

/-- Rust `Operation::from_update`. -/
def from_update (d : BDoc) : Except Error Operation :=
  match get_i64 d "h" with
  | .error e => .error (.MissingField e)
  | .ok h =>
  match get_datetime d "ts" with
  | .error e => .error (.MissingField e)
  | .ok ts =>
  match get_str d "ns" with
  | .error e => .error (.MissingField e)
  | .ok ns =>
  match get_document d "o" with
  | .error e => .error (.MissingField e)
  | .ok o =>
  match get_document d "o2" with
  | .error e => .error (.MissingField e)
  | .ok o2 => .ok (.Update h ts ns o2 o)

/-- Rust `Operation::from_delete`. -/
def from_delete (d : BDoc) : Except Error Operation :=
  match get_i64 d "h" with
  | .error e => .error (.MissingField e)
  | .ok h =>
  match get_datetime d "ts" with
  | .error e => .error (.MissingField e)
  | .ok ts =>
  match get_str d "ns" with
  | .error e => .error (.MissingField e)
  | .ok ns =>
  match get_document d "o" with
  | .error e => .error (.MissingField e)
  | .ok o => .ok (.Delete h ts ns o)

theorem getVal_sizeOf {d : BDoc} {k : String} {v : Bson}
    (h : getVal d k = some v) : sizeOf v < sizeOf d := by
  induction d with
  | nil => simp [getVal] at h
  | cons hd tl ih =>
    obtain ⟨k1, v1⟩ := hd
    simp only [getVal] at h
    split at h
    · cases h
      simp
      omega
    · have := ih h
      simp
      omega

theorem get_document_sizeOf {d : BDoc} {k : String} {o : BDoc}
    (h : get_document d k = .ok o) : sizeOf o < sizeOf d := by
  unfold get_document at h
  split at h
  · rename_i o' heq
    injection h with h'
    subst h'
    have := getVal_sizeOf heq
    simp at this
    omega
  · exact absurd h (by simp)
  · exact absurd h (by simp)

theorem get_array_sizeOf {d : BDoc} {k : String} {a : List Bson}
    (h : get_array d k = .ok a) : sizeOf a < sizeOf d := by
  unfold get_array at h
  split at h
  · rename_i a' heq
    injection h with h'
    subst h'
    have := getVal_sizeOf heq
    simp at this
    omega
  · exact absurd h (by simp)
  · exact absurd h (by simp)

set_option linter.unusedVariables false

mutual

/-- Rust `Operation::new`: try to create a new `Operation` from a BSON document. -/
def new (d : BDoc) : Except Error Operation :=
  match get_str d "op" with
  | .error e => .error (.MissingField e)
  | .ok op =>
    match op with
    | "n" => from_noop d
    | "i" => from_insert d
    | "u" => from_update d
    | "d" => from_delete d
    | "c" => from_command d
    | op => .error (.UnknownOperation op)
termination_by 2 * sizeOf d + 1

/-- Rust `Operation::from_bson`: an operation from any BSON value. -/
def from_bson (b : Bson) : Except Error Operation :=
  match b with
  | .document d => new d
  | _ => .error .InvalidOperation
termination_by 2 * sizeOf b

/-- Rust `Operation::from_command`.  Returns either a `Command` or, when the
payload holds an `applyOps` array, an `ApplyOps` of the recursively decoded
elements. -/
def from_command (d : BDoc) : Except Error Operation :=
  match get_i64 d "h" with
  | .error e => .error (.MissingField e)
  | .ok h =>
  match get_datetime d "ts" with
  | .error e => .error (.MissingField e)
  | .ok ts =>
  match get_str d "ns" with
  | .error e => .error (.MissingField e)
  | .ok ns =>
  match ho : get_document d "o" with
  | .error e => .error (.MissingField e)
  | .ok o =>
  match ha : get_array o "applyOps" with
  | .ok ops =>
    match from_bson_list ops with
    | .ok operations => .ok (.ApplyOps h ts ns operations)
    | .error e => .error e
  | .error _ => .ok (.Command h ts ns o)
termination_by 2 * sizeOf d
decreasing_by
  simp_wf
  have h1 := get_document_sizeOf ho
  have h2 := get_array_sizeOf ha
  omega

/-- The fold of `Operation::from_bson` over an `applyOps` array, with the
semantics of `collect::<Result<Vec<Operation>>>`: the first error aborts the
whole collection. -/
def from_bson_list (l : List Bson) : Except Error (List Operation) :=
  match l with
  | [] => .ok []
  | b :: rest =>
    match from_bson b with
    | .error e => .error e
    | .ok op =>
      match from_bson_list rest with
      | .error e => .error e
      | .ok ops => .ok (op :: ops)
termination_by 2 * sizeOf l

end

set_option linter.unusedVariables true

/-! ### A fuel-indexed companion of the decoder

The Rust decoder carries no explicit depth bound: the `applyOps` recursion
descends only into strictly smaller sub-values.  To express that as a
theorem, `newF` runs the same algorithm under an explicit fuel bound,
structurally recursive in the fuel, and is proved to agree with
`Operation.new` whenever the fuel is at least `2 * sizeOf d + 1`. -/

mutual

/-- Rust `Operation::new` with explicit fuel; `none` means the fuel ran out. -/
def newF : Nat → BDoc → Option (Except Error Operation)
  | 0, _ => none
  | n + 1, d =>
    match get_str d "op" with
    | .error e => some (.error (.MissingField e))
    | .ok op =>
      match op with
      | "n" => some (from_noop d)
      | "i" => some (from_insert d)
      | "u" => some (from_update d)
      | "d" => some (from_delete d)
      | "c" => from_commandF n d
      | op => some (.error (.UnknownOperation op))

/-- Rust `Operation::from_command` with explicit fuel. -/
def from_commandF : Nat → BDoc → Option (Except Error Operation)
  | 0, _ => none
  | n + 1, d =>
    match get_i64 d "h" with
    | .error e => some (.error (.MissingField e))
    | .ok h =>
    match get_datetime d "ts" with
    | .error e => some (.error (.MissingField e))
    | .ok ts =>
    match get_str d "ns" with
    | .error e => some (.error (.MissingField e))
    | .ok ns =>
    match get_document d "o" with
    | .error e => some (.error (.MissingField e))
    | .ok o =>
    match get_array o "applyOps" with
    | .ok ops =>
      match from_bson_listF n ops with
      | none => none
      | some (.ok operations) => some (.ok (.ApplyOps h ts ns operations))
      | some (.error e) => some (.error e)
    | .error _ => some (.ok (.Command h ts ns o))

/-- Rust `Operation::from_bson` with explicit fuel. -/
def from_bsonF : Nat → Bson → Option (Except Error Operation)
  | 0, _ => none
  | n + 1, b =>
    match b with
    | .document d => newF n d
    | _ => some (.error .InvalidOperation)

/-- The `applyOps` collection with explicit fuel. -/
def from_bson_listF : Nat → List Bson → Option (Except Error (List Operation))
  | 0, _ => none
  | n + 1, l =>
    match l with
    | [] => some (.ok [])
    | b :: rest =>
      match from_bsonF n b with
      | none => none
      | some (.error e) => some (.error e)
      | some (.ok op) =>
        match from_bson_listF n rest with
        | none => none
        | some (.error e) => some (.error e)
        | some (.ok ops) => some (.ok (op :: ops))

end

end Operation

/-! ### The per-record step of `Oplog::stream` (src/oplog.rs) -/

/-- The observable outcome of one iteration of the loop inside the
`stream!` block of `Oplog::stream`. -/
inductive StreamStep where
  | yielded (op : Operation)
  | skipped
  | panicked

namespace Oplog

/-- One iteration of the loop in `Oplog::stream`, as a function of the
cursor's `try_next` result (`Result<Option<Document>>`, the driver error
modelled by its message):

* `Ok(Some(o))` — the code runs `yield crate::Operation::new(&o).unwrap()`,
  so a decoded operation is yielded on success and `.unwrap()` panics the
  task (aborting the stream) when the decode returns an error;
* `Ok(None)` — nothing is yielded and the loop continues;
* `Err(e)` — the error is printed and the loop continues. -/
def streamIter (next : Except String (Option BDoc)) : StreamStep :=
  match next with
  | .ok (some o) =>
    match Operation.new o with
    | .ok op => .yielded op
    | .error _ => .panicked
  | .ok none => .skipped
  | .error _ => .skipped

end Oplog

/-! ### The namespace filter built by `subscribe` (src/lib.rs) -/

/-- The filter value that `subscribe(ctx, client, ns, coll, filter)` builds
and passes to `Oplog::new`:

```
let ns = format!("{}.{}", ns, coll);
let filter = if let Some(mut filter) = filter {
    filter.insert("ns", ns);
    filter
} else {
    doc! \x7b"ns": ns\x7d
};
``` -/
def subscribeFilter (db coll : String) (filter : Option BDoc) : BDoc :=
  let ns := db ++ "." ++ coll
  match filter with
  | some f => insertVal f "ns" (.str ns)
  | none => [("ns", .str ns)]

/-! ### Concrete documents, taken from the crate's own tests -/

/-- The insert-shaped nested record inside the `applyOps` batch of the
crate's `operation_returns_apply_ops` test. -/
def applyOpsEntry : BDoc :=
  [("ts", Bson.datetime 1479561394), ("t", Bson.int32 2),
   ("h", Bson.int64 (-1742072865587022793)), ("op", Bson.str "i"),
   ("ns", Bson.str "foo.bar"),
   ("o", Bson.document [("_id", Bson.int32 1), ("foo", Bson.str "bar")])]

/-- The operation `applyOpsEntry` decodes to. -/
def applyOpsEntryOp : Operation :=
  .Insert (-1742072865587022793) 1479561394 "foo.bar"
    [("_id", Bson.int32 1), ("foo", Bson.str "bar")]

/-- The command record of the crate's `operation_returns_apply_ops` test:
its `o` payload holds an `applyOps` batch of one insert record. -/
def applyOpsCmdDoc : BDoc :=
  [("ts", Bson.datetime 1483789052), ("h", Bson.int64 (-3262249347345468996)),
   ("v", Bson.int32 2), ("op", Bson.str "c"), ("ns", Bson.str "foo.$cmd"),
   ("o", Bson.document [("applyOps", Bson.array [Bson.document applyOpsEntry])])]

/-- The legacy update record of the crate's `operation_converts_updates`
test. -/
def updateDocEx : BDoc :=
  [("ts", Bson.datetime 1479561033), ("h", Bson.int64 3511341713062188019),
   ("v", Bson.int32 2), ("op", Bson.str "u"), ("ns", Bson.str "foo.bar"),
   ("o2", Bson.document [("_id", Bson.int32 1)]),
   ("o", Bson.document [("$set", Bson.document [("foo", Bson.str "baz")])])]

/-- A command record whose `applyOps` array holds an empty document (which
itself fails to decode) followed by a non-document element. -/
def badBatchDoc : BDoc :=
  [("ts", Bson.datetime 0), ("h", Bson.int64 1), ("op", Bson.str "c"),
   ("ns", Bson.str "a.$cmd"),
   ("o", Bson.document
     [("applyOps", Bson.array [Bson.document [], Bson.int32 5])])]

/-- A command record whose `applyOps` array holds one decodable insert
record followed by a non-document element. -/
def mixedBatchDoc : BDoc :=
  [("ts", Bson.datetime 0), ("h", Bson.int64 1), ("op", Bson.str "c"),
   ("ns", Bson.str "a.$cmd"),
   ("o", Bson.document
     [("applyOps", Bson.array [Bson.document applyOpsEntry, Bson.int32 5])])]

/-! ### Decoder lemmas -/

namespace Operation
theorem new_missing (d : BDoc) (e : ValueAccessError)
    (hop : get_str d "op" = .error e) :
    Operation.new d = .error (.MissingField e) := by
  rw [Operation.new, hop]

theorem new_noop (d : BDoc) (hop : get_str d "op" = .ok "n") :
    Operation.new d = Operation.from_noop d := by
  rw [Operation.new, hop]; rfl

theorem new_insert (d : BDoc) (hop : get_str d "op" = .ok "i") :
    Operation.new d = Operation.from_insert d := by
  rw [Operation.new, hop]; rfl

theorem new_update (d : BDoc) (hop : get_str d "op" = .ok "u") :
    Operation.new d = Operation.from_update d := by
  rw [Operation.new, hop]; rfl

theorem new_delete (d : BDoc) (hop : get_str d "op" = .ok "d") :
    Operation.new d = Operation.from_delete d := by
  rw [Operation.new, hop]; rfl

theorem new_command (d : BDoc) (hop : get_str d "op" = .ok "c") :
    Operation.new d = Operation.from_command d := by
  rw [Operation.new, hop]; rfl

theorem new_unknown (d : BDoc) (op : String) (hop : get_str d "op" = .ok op)
    (h1 : op ≠ "n") (h2 : op ≠ "i") (h3 : op ≠ "u") (h4 : op ≠ "d")
    (h5 : op ≠ "c") :
    Operation.new d = .error (.UnknownOperation op) := by
  rw [Operation.new, hop]
  split <;> simp_all

theorem from_command_applyOps (d o : BDoc) (hid ts : Int) (ns : String)
    (ops : List Bson)
    (hh : get_i64 d "h" = .ok hid) (hts : get_datetime d "ts" = .ok ts)
    (hns : get_str d "ns" = .ok ns) (ho : get_document d "o" = .ok o)
    (hga : get_array o "applyOps" = .ok ops) :
    Operation.from_command d =
      match Operation.from_bson_list ops with
      | .ok l => .ok (.ApplyOps hid ts ns l)
      | .error e => .error e := by
  rw [Operation.from_command]
  repeat' split <;> simp_all

theorem from_command_cmd (d o : BDoc) (hid ts : Int) (ns : String)
    (e0 : ValueAccessError)
    (hh : get_i64 d "h" = .ok hid) (hts : get_datetime d "ts" = .ok ts)
    (hns : get_str d "ns" = .ok ns) (ho : get_document d "o" = .ok o)
    (hga : get_array o "applyOps" = .error e0) :
    Operation.from_command d = .ok (.Command hid ts ns o) := by
  rw [Operation.from_command]
  repeat' split <;> simp_all

theorem from_command_err_h (d : BDoc) (e : ValueAccessError)
    (hh : get_i64 d "h" = .error e) :
    Operation.from_command d = .error (.MissingField e) := by
  rw [Operation.from_command]
  repeat' split <;> simp_all

theorem from_command_err_ts (d : BDoc) (hid : Int) (e : ValueAccessError)
    (hh : get_i64 d "h" = .ok hid) (hts : get_datetime d "ts" = .error e) :
    Operation.from_command d = .error (.MissingField e) := by
  rw [Operation.from_command]
  repeat' split <;> simp_all

theorem from_command_err_ns (d : BDoc) (hid ts : Int) (e : ValueAccessError)
    (hh : get_i64 d "h" = .ok hid) (hts : get_datetime d "ts" = .ok ts)
    (hns : get_str d "ns" = .error e) :
    Operation.from_command d = .error (.MissingField e) := by
  rw [Operation.from_command]
  repeat' split <;> simp_all

theorem from_command_err_o (d : BDoc) (hid ts : Int) (ns : String)
    (e : ValueAccessError)
    (hh : get_i64 d "h" = .ok hid) (hts : get_datetime d "ts" = .ok ts)
    (hns : get_str d "ns" = .ok ns) (ho : get_document d "o" = .error e) :
    Operation.from_command d = .error (.MissingField e) := by
  rw [Operation.from_command]
  repeat' split <;> simp_all

theorem from_bson_doc (d : BDoc) :
    Operation.from_bson (.document d) = Operation.new d := by
  rw [Operation.from_bson]

theorem from_bson_nondoc (b : Bson) (h : ∀ d, b ≠ .document d) :
    Operation.from_bson b = .error .InvalidOperation := by
  rw [Operation.from_bson]
  cases b <;> simp_all

theorem from_bson_list_nil : Operation.from_bson_list [] = .ok [] := by
  rw [Operation.from_bson_list]

theorem from_bson_list_cons (b : Bson) (rest : List Bson) :
    Operation.from_bson_list (b :: rest) =
      match Operation.from_bson b with
      | .error e => .error e
      | .ok op =>
        match Operation.from_bson_list rest with
        | .error e => .error e
        | .ok ops => .ok (op :: ops) := by
  rw [Operation.from_bson_list]

/-- If every element of an `applyOps` array decodes, the collection succeeds
and its result is the pointwise decoding, in order. -/
theorem from_bson_list_all_ok (l : List Bson)
    (h : ∀ b ∈ l, ∃ op, Operation.from_bson b = .ok op) :
    ∃ ops, Operation.from_bson_list l = .ok ops ∧
      List.Forall₂ (fun b op => Operation.from_bson b = .ok op) l ops := by
  induction l with
  | nil => exact ⟨[], from_bson_list_nil, List.Forall₂.nil⟩
  | cons b rest ih =>
    obtain ⟨op, hop⟩ := h b (List.mem_cons_self b rest)
    obtain ⟨ops, hops, hall⟩ := ih fun x hx => h x (List.mem_cons_of_mem _ hx)
    refine ⟨op :: ops, ?_, List.Forall₂.cons hop hall⟩
    rw [from_bson_list_cons, hop, hops]

/-- If the collection of an `applyOps` array succeeds, every element of the
array was a document. -/
theorem from_bson_list_ok_all_doc (l : List Bson) (ops : List Operation)
    (h : Operation.from_bson_list l = .ok ops) :
    ∀ b ∈ l, ∃ d, b = Bson.document d := by
  induction l generalizing ops with
  | nil => intro b hb; simp at hb
  | cons b rest ih =>
    rw [from_bson_list_cons] at h
    intro x hx
    rcases hb : Operation.from_bson b with e | op
    · rw [hb] at h; simp at h
    · rw [hb] at h
      rcases hrest : Operation.from_bson_list rest with e | ops' <;> rw [hrest] at h
      · simp at h
      · rcases List.mem_cons.mp hx with hx1 | hx2
        · subst hx1
          rcases x with s | n | n | t | bb | dd | a
          all_goals first
            | exact ⟨_, rfl⟩
            | (rw [from_bson_nondoc _ (by intro d hd; cases hd)] at hb; cases hb)
        · exact ih ops' hrest x hx2

/-- The first failing element of an `applyOps` array determines the error of
the whole collection. -/
theorem from_bson_list_first_error (pre : List Bson) (b : Bson)
    (rest : List Bson) (e : Error)
    (hpre : ∀ x ∈ pre, ∃ opx, Operation.from_bson x = .ok opx)
    (hb : Operation.from_bson b = .error e) :
    Operation.from_bson_list (pre ++ b :: rest) = .error e := by
  induction pre with
  | nil =>
    rw [List.nil_append, from_bson_list_cons, hb]
  | cons x pre' ih =>
    obtain ⟨opx, hx⟩ := hpre x (List.mem_cons_self x pre')
    rw [List.cons_append, from_bson_list_cons, hx,
      ih fun y hy => hpre y (List.mem_cons_of_mem _ hy)]

theorem sizeOf_bdoc_pos (d : BDoc) : 0 < sizeOf d := by
  cases d <;> simp

theorem sizeOf_bson_pos (b : Bson) : 0 < sizeOf b := by
  cases b <;> simp

theorem sizeOf_blist_pos (l : List Bson) : 0 < sizeOf l := by
  cases l <;> simp

/-- With fuel at least `2 * sizeOf _ + 1`, the fueled decoder agrees with
the unbounded one: the recursion of `Operation::new` through `applyOps`
descends only into strictly smaller sub-values, so it terminates on every
finite document, with depth bounded by the document's size. -/
theorem fuel_adequate : ∀ n : Nat,
    (∀ d : BDoc, 2 * sizeOf d + 1 ≤ n → newF n d = some (Operation.new d)) ∧
    (∀ d : BDoc, 2 * sizeOf d ≤ n →
      from_commandF n d = some (Operation.from_command d)) ∧
    (∀ b : Bson, 2 * sizeOf b ≤ n →
      from_bsonF n b = some (Operation.from_bson b)) ∧
    (∀ l : List Bson, 2 * sizeOf l ≤ n →
      from_bson_listF n l = some (Operation.from_bson_list l)) := by
  intro n
  induction n using Nat.strong_induction_on with
  | _ n ih =>
    match n with
    | 0 =>
      refine ⟨fun d hd => ?_, fun d hd => ?_, fun b hb => ?_, fun l hl => ?_⟩
      · omega
      · have := sizeOf_bdoc_pos d; omega
      · have := sizeOf_bson_pos b; omega
      · have := sizeOf_blist_pos l; omega
    | m + 1 =>
      obtain ⟨ihA, ihB, ihC, ihD⟩ := ih m (Nat.lt_succ_self m)
      refine ⟨fun d hd => ?_, fun d hd => ?_, fun b hb => ?_, fun l hl => ?_⟩
      · -- newF
        rw [newF]
        rcases hop : get_str d "op" with e | op
        · rw [Operation.new_missing d e hop]
        · by_cases h1 : op = "n"
          · subst h1; rw [Operation.new_noop d hop]; exact rfl
          · by_cases h2 : op = "i"
            · subst h2; rw [Operation.new_insert d hop]; exact rfl
            · by_cases h3 : op = "u"
              · subst h3; rw [Operation.new_update d hop]; exact rfl
              · by_cases h4 : op = "d"
                · subst h4; rw [Operation.new_delete d hop]; exact rfl
                · by_cases h5 : op = "c"
                  · subst h5
                    rw [Operation.new_command d hop]
                    have hbd : 2 * sizeOf d ≤ m := by omega
                    show from_commandF m d = some (Operation.from_command d)
                    exact ihB d hbd
                  · rw [Operation.new_unknown d op hop h1 h2 h3 h4 h5]
                    split <;> simp_all
      · -- from_commandF
        rw [from_commandF]
        rcases hh : get_i64 d "h" with e | hid
        · rw [Operation.from_command_err_h d e hh]
        · rcases hts : get_datetime d "ts" with e | ts
          · rw [Operation.from_command_err_ts d hid e hh hts]
          · rcases hns : get_str d "ns" with e | ns
            · rw [Operation.from_command_err_ns d hid ts e hh hts hns]
            · rcases ho : get_document d "o" with e | o
              · rw [Operation.from_command_err_o d hid ts ns e hh hts hns ho]
              · rcases ha : get_array o "applyOps" with e | ops
                · rw [Operation.from_command_cmd d o hid ts ns e hh hts hns ho ha]
                  simp only [ha]
                · have hso : sizeOf o < sizeOf d := Operation.get_document_sizeOf ho
                  have hsops : sizeOf ops < sizeOf o := Operation.get_array_sizeOf ha
                  have hops : 2 * sizeOf ops ≤ m := by omega
                  rw [Operation.from_command_applyOps d o hid ts ns ops hh hts hns ho ha]
                  simp only [ha, ihD ops hops]
                  rcases Operation.from_bson_list ops with e | l <;> exact rfl
      · -- from_bsonF
        rcases b with s | n1 | n2 | t | bb | dd | a
        case document =>
          have hdd : 2 * sizeOf dd + 1 ≤ m := by simp at hb; omega
          simp only [from_bsonF]
          rw [Operation.from_bson_doc, ihA dd hdd]
        all_goals
          rw [Operation.from_bson_nondoc _ (fun d hd => by cases hd)]
          exact rfl
      · -- from_bson_listF
        rcases l with _ | ⟨b, rest⟩
        · rw [Operation.from_bson_list_nil]
          exact rfl
        · have hsz : sizeOf (b :: rest) = 1 + sizeOf b + sizeOf rest := by
            simp
          rw [hsz] at hl
          have hb : 2 * sizeOf b ≤ m := by omega
          have hrest : 2 * sizeOf rest ≤ m := by omega
          simp only [from_bson_listF]
          rw [ihC b hb, ihD rest hrest, Operation.from_bson_list_cons]
          rcases Operation.from_bson b with e | op
          · exact rfl
          · rcases Operation.from_bson_list rest with e | ops <;> exact rfl

/-! ### The decoder never produces the `Database` error variant -/

theorem from_noop_no_db (d : BDoc) (s : String) :
    Operation.from_noop d ≠ .error (.Database s) := by
  rw [Operation.from_noop]
  repeat' split
  all_goals simp

theorem from_insert_no_db (d : BDoc) (s : String) :
    Operation.from_insert d ≠ .error (.Database s) := by
  rw [Operation.from_insert]
  repeat' split
  all_goals simp

theorem from_update_no_db (d : BDoc) (s : String) :
    Operation.from_update d ≠ .error (.Database s) := by
  rw [Operation.from_update]
  repeat' split
  all_goals simp

theorem from_delete_no_db (d : BDoc) (s : String) :
    Operation.from_delete d ≠ .error (.Database s) := by
  rw [Operation.from_delete]
  repeat' split
  all_goals simp

/-- No decoding path of `Operation::new` constructs the `Database` error:
that variant only enters through `From<mongodb::error::Error>`, in the
reader layer. -/
theorem noDatabase : ∀ n : Nat,
    (∀ d : BDoc, 2 * sizeOf d + 1 ≤ n → ∀ s,
      Operation.new d ≠ .error (.Database s)) ∧
    (∀ d : BDoc, 2 * sizeOf d ≤ n → ∀ s,
      Operation.from_command d ≠ .error (.Database s)) ∧
    (∀ b : Bson, 2 * sizeOf b ≤ n → ∀ s,
      Operation.from_bson b ≠ .error (.Database s)) ∧
    (∀ l : List Bson, 2 * sizeOf l ≤ n → ∀ s,
      Operation.from_bson_list l ≠ .error (.Database s)) := by
  intro n
  induction n using Nat.strong_induction_on with
  | _ n ih =>
    match n with
    | 0 =>
      refine ⟨fun d hd => ?_, fun d hd => ?_, fun b hb => ?_, fun l hl => ?_⟩
      · omega
      · have := sizeOf_bdoc_pos d; omega
      · have := sizeOf_bson_pos b; omega
      · have := sizeOf_blist_pos l; omega
    | m + 1 =>
      obtain ⟨ihA, ihB, ihC, ihD⟩ := ih m (Nat.lt_succ_self m)
      refine ⟨fun d hd s => ?_, fun d hd s => ?_, fun b hb s => ?_,
        fun l hl s => ?_⟩
      · -- Operation.new
        rcases hop : get_str d "op" with e | op
        · rw [Operation.new_missing d e hop]; simp
        · by_cases h1 : op = "n"
          · subst h1; rw [Operation.new_noop d hop]
            exact from_noop_no_db d s
          · by_cases h2 : op = "i"
            · subst h2; rw [Operation.new_insert d hop]
              exact from_insert_no_db d s
            · by_cases h3 : op = "u"
              · subst h3; rw [Operation.new_update d hop]
                exact from_update_no_db d s
              · by_cases h4 : op = "d"
                · subst h4; rw [Operation.new_delete d hop]
                  exact from_delete_no_db d s
                · by_cases h5 : op = "c"
                  · subst h5; rw [Operation.new_command d hop]
                    exact ihB d (by omega) s
                  · rw [Operation.new_unknown d op hop h1 h2 h3 h4 h5]; simp
      · -- Operation.from_command
        rcases hh : get_i64 d "h" with e | hid
        · rw [Operation.from_command_err_h d e hh]; simp
        · rcases hts : get_datetime d "ts" with e | ts
          · rw [Operation.from_command_err_ts d hid e hh hts]; simp
          · rcases hns : get_str d "ns" with e | ns
            · rw [Operation.from_command_err_ns d hid ts e hh hts hns]; simp
            · rcases ho : get_document d "o" with e | o
              · rw [Operation.from_command_err_o d hid ts ns e hh hts hns ho]
                simp
              · rcases ha : get_array o "applyOps" with e | ops
                · rw [Operation.from_command_cmd d o hid ts ns e hh hts hns ho ha]
                  simp
                · have hso : sizeOf o < sizeOf d := Operation.get_document_sizeOf ho
                  have hsops : sizeOf ops < sizeOf o := Operation.get_array_sizeOf ha
                  rw [Operation.from_command_applyOps d o hid ts ns ops hh hts hns ho ha]
                  have hno := ihD ops (by omega) s
                  rcases hfl : Operation.from_bson_list ops with e' | ll
                  · rw [hfl] at hno
                    simp only [hfl]
                    intro hcon
                    injection hcon with h'
                    exact hno (by rw [h'])
                  · simp only [hfl]; simp
      · -- Operation.from_bson
        rcases b with s' | n1 | n2 | t | bb | dd | a
        case document =>
          rw [Operation.from_bson_doc]
          exact ihA dd (by simp at hb; omega) s
        all_goals
          rw [Operation.from_bson_nondoc _ (fun d hd => by cases hd)]
          simp
      · -- Operation.from_bson_list
        rcases l with _ | ⟨b, rest⟩
        · rw [Operation.from_bson_list_nil]; simp
        · have hsz : sizeOf (b :: rest) = 1 + sizeOf b + sizeOf rest := by
            simp
          rw [hsz] at hl
          rw [Operation.from_bson_list_cons]
          rcases hfb : Operation.from_bson b with e | op
          · have hno := ihC b (by omega) s
            rw [hfb] at hno
            simp only [hfb]
            intro hcon
            injection hcon with h'
            exact hno (by rw [h'])
          · simp only [hfb]
            rcases hfl : Operation.from_bson_list rest with e | ops
            · have hno := ihD rest (by omega) s
              rw [hfl] at hno
              simp only [hfl]
              exact hno
            · simp only [hfl]; simp

end Operation
theorem getVal_insertVal_self (f : BDoc) (k : String) (v : Bson) :
    getVal (insertVal f k v) k = some v := by
  induction f with
  | nil => simp [insertVal, getVal]
  | cons hd tl ih =>
    obtain ⟨k1, v1⟩ := hd
    by_cases hk : k1 = k
    · subst hk; simp [insertVal, getVal]
    · simp [insertVal, getVal, hk, ih]

theorem getVal_insertVal_other (f : BDoc) (k k2 : String) (v : Bson)
    (hne : k2 ≠ k) : getVal (insertVal f k v) k2 = getVal f k2 := by
  have hne' : ¬k = k2 := fun h => hne h.symm
  induction f with
  | nil => simp [insertVal, getVal, hne']
  | cons hd tl ih =>
    obtain ⟨k1, v1⟩ := hd
    by_cases hk : k1 = k
    · subst hk
      simp [insertVal, getVal, hne']
    · simp only [insertVal, if_neg hk, getVal]
      split <;> simp_all

/-! ### Accessor helpers and concrete evaluations -/

theorem get_array_of_getVal (o : BDoc) (k : String) (a : List Bson)
    (h : getVal o k = some (.array a)) : get_array o k = .ok a := by
  unfold get_array
  rw [h]

theorem get_array_err_of_not_array (o : BDoc) (k : String)
    (h : ∀ a, getVal o k ≠ some (.array a)) :
    ∃ e, get_array o k = .error e := by
  unfold get_array
  rcases hv : getVal o k with _ | v
  · exact ⟨_, rfl⟩
  · rcases v with s | n | n | t | b | dd | a
    case array => exact absurd hv (h a)
    all_goals exact ⟨_, rfl⟩

theorem new_applyOpsEntry : Operation.new applyOpsEntry = .ok applyOpsEntryOp := by
  rw [Operation.new_insert applyOpsEntry rfl]
  rfl

/-! ### The claims -/

/-- C1: the claim states that a decode failure (MissingField,
UnknownOperation or InvalidOperation) never aborts the stream of
Operations and that the adapter skips the failing record.  The code of
`Oplog::stream` instead runs `Operation::new(&o).unwrap()`, so on the raw
record `{op:"x"}` — whose decode fails with `UnknownOperation("x")` — the
unwrap panics and the whole stream task aborts.  This theorem evaluates
the adapter's per-record step at that failing input. -/
theorem claim_C1_stream_aborts_on_decode_failure :
    Oplog.streamIter (.ok (some [("op", Bson.str "x")])) = .panicked := by
  have h : Operation.new [("op", Bson.str "x")]
      = .error (.UnknownOperation "x") :=
    Operation.new_unknown _ "x" rfl (by decide) (by decide) (by decide)
      (by decide) (by decide)
  simp [Oplog.streamIter, h]

/-- C2: the claim describes the subscription worker turning Insert/Update/
Delete into Added/Updated/Deleted by re-decoding "the document" of the
operation.  The decoder's Update variant, evaluated here on the crate's own
legacy update record, carries a `query` and an `update` document and no
`document` field at all, while the worker's match arms
`Operation::Update { document, .. }` and `Operation::Delete { document, .. }`
in `src/lib.rs` demand one (and the match has no arm for
Noop/Command/ApplyOps), so the worker does not compile against the crate's
own `Operation` type. -/
theorem claim_C2_decoded_update_shape :
    Operation.new updateDocEx =
      .ok (.Update 3511341713062188019 1479561033 "foo.bar"
        [("_id", Bson.int32 1)]
        [("$set", Bson.document [("foo", Bson.str "baz")])]) := by
  rw [Operation.new_update updateDocEx rfl]
  rfl

/-- C3 counterexample: for the record `{op:"i", ts:T, ns:"foo.bar",
o:{"foo":"bar"}}` with no other fields (here at T = 0), decode does not
succeed: `from_insert` demands the `h` field and fails with
`MissingField(NotPresent)`. -/
theorem claim_C3_counterexample :
    Operation.new [("op", Bson.str "i"), ("ts", Bson.datetime 0),
        ("ns", Bson.str "foo.bar"),
        ("o", Bson.document [("foo", Bson.str "bar")])]
      = .error (.MissingField .NotPresent) := by
  rw [Operation.new_insert [("op", Bson.str "i"), ("ts", Bson.datetime 0),
    ("ns", Bson.str "foo.bar"),
    ("o", Bson.document [("foo", Bson.str "bar")])] rfl]
  rfl

/-- C3 (amended): decoding `{op:"i", ts:T, h:H, ns:"foo.bar",
o:{"foo":"bar"}}` succeeds and yields
`Insert{id=H, timestamp=T, namespace="foo.bar", document={"foo":"bar"}}`,
but the `h` id field is required by insert decoding: without it the same
record fails with `MissingField(NotPresent)`. -/
theorem claim_C3_insert_requires_h (ts hid : Int) :
    Operation.new [("op", Bson.str "i"), ("ts", Bson.datetime ts),
        ("h", Bson.int64 hid), ("ns", Bson.str "foo.bar"),
        ("o", Bson.document [("foo", Bson.str "bar")])]
      = .ok (.Insert hid ts "foo.bar" [("foo", Bson.str "bar")]) ∧
    Operation.new [("op", Bson.str "i"), ("ts", Bson.datetime ts),
        ("ns", Bson.str "foo.bar"),
        ("o", Bson.document [("foo", Bson.str "bar")])]
      = .error (.MissingField .NotPresent) := by
  constructor
  · rw [Operation.new_insert [("op", Bson.str "i"), ("ts", Bson.datetime ts),
      ("h", Bson.int64 hid), ("ns", Bson.str "foo.bar"),
      ("o", Bson.document [("foo", Bson.str "bar")])] rfl]
    rfl
  · rw [Operation.new_insert [("op", Bson.str "i"), ("ts", Bson.datetime ts),
      ("ns", Bson.str "foo.bar"),
      ("o", Bson.document [("foo", Bson.str "bar")])] rfl]
    rfl

/-- C4: for every record with `op:"c"` whose required fields decode
successfully, the command branch is two-way: when `o` holds an `applyOps`
array whose elements all decode, the result is `ApplyOps` whose operations
are exactly the recursively decoded elements in order; otherwise —
including when `applyOps` is present but not an array — the result is
`Command` carrying the whole raw `o` document. -/
theorem claim_C4_command_two_way (d o : BDoc) (hid ts : Int) (ns : String)
    (hop : get_str d "op" = .ok "c")
    (hh : get_i64 d "h" = .ok hid) (hts : get_datetime d "ts" = .ok ts)
    (hns : get_str d "ns" = .ok ns) (ho : get_document d "o" = .ok o) :
    (∀ ops, getVal o "applyOps" = some (.array ops) →
      (∀ b ∈ ops, ∃ op, Operation.from_bson b = .ok op) →
      ∃ l, Operation.new d = .ok (.ApplyOps hid ts ns l) ∧
        List.Forall₂ (fun b op => Operation.from_bson b = .ok op) ops l) ∧
    ((∀ ops, getVal o "applyOps" ≠ some (.array ops)) →
      Operation.new d = .ok (.Command hid ts ns o)) := by
  constructor
  · intro ops hga hall
    obtain ⟨l, hl, hfa⟩ := Operation.from_bson_list_all_ok ops hall
    refine ⟨l, ?_, hfa⟩
    rw [Operation.new_command d hop,
      Operation.from_command_applyOps d o hid ts ns ops hh hts hns ho
        (get_array_of_getVal o "applyOps" ops hga), hl]
  · intro hnone
    obtain ⟨e, he⟩ := get_array_err_of_not_array o "applyOps" hnone
    rw [Operation.new_command d hop,
      Operation.from_command_cmd d o hid ts ns e hh hts hns ho he]

/-- C4 witness: the crate's `operation_returns_apply_ops` record — a
command whose `o` holds an `applyOps` batch of one valid insert-shaped
nested record — decodes to `ApplyOps` with exactly one element, the decode
of that nested record. -/
theorem claim_C4_witness :
    ∃ l, Operation.new applyOpsCmdDoc =
        .ok (.ApplyOps (-3262249347345468996) 1483789052 "foo.$cmd" l) ∧
      List.Forall₂ (fun b op => Operation.from_bson b = .ok op)
        [Bson.document applyOpsEntry] l :=
  (claim_C4_command_two_way applyOpsCmdDoc
      [("applyOps", Bson.array [Bson.document applyOpsEntry])]
      (-3262249347345468996) 1483789052 "foo.$cmd" rfl rfl rfl rfl rfl).1
    [Bson.document applyOpsEntry] rfl
    (fun b hb => by
      have hb' : b = Bson.document applyOpsEntry := by simpa using hb
      subst hb'
      exact ⟨applyOpsEntryOp, by
        rw [Operation.from_bson_doc, new_applyOpsEntry]⟩)

/-- C5 counterexample: the claim states that any command record whose
`applyOps` array contains a non-document element fails with
`InvalidOperation`.  For `badBatchDoc` — whose batch is `[{}, 5]`, with the
non-document `5` preceded by an empty document that itself fails to decode —
the whole decode fails with `MissingField(NotPresent)` instead, not
`InvalidOperation`. -/
theorem claim_C5_counterexample :
    Operation.new badBatchDoc = .error (.MissingField .NotPresent) ∧
    Operation.new badBatchDoc ≠ .error .InvalidOperation := by
  have h : Operation.new badBatchDoc = .error (.MissingField .NotPresent) := by
    rw [Operation.new_command badBatchDoc rfl,
      Operation.from_command_applyOps badBatchDoc
        [("applyOps", Bson.array [Bson.document [], Bson.int32 5])] 1 0
        "a.$cmd" [Bson.document [], Bson.int32 5] rfl rfl rfl rfl rfl,
      Operation.from_bson_list_cons]
    have hfb : Operation.from_bson (Bson.document [])
        = .error (.MissingField .NotPresent) := by
      rw [Operation.from_bson_doc, Operation.new_missing [] .NotPresent rfl]
    rw [hfb]
  exact ⟨h, by rw [h]; simp⟩

/-- C5 (amended): for every command record whose `applyOps` array contains
a non-document element, the whole decode fails — no `ApplyOps` value,
partial or otherwise, is ever returned; and when every element preceding
the non-document element decodes successfully, the error is
`InvalidOperation` (an element failing earlier propagates its own error
instead). -/
theorem claim_C5_nondoc_batch_entry (d o : BDoc) (hid ts : Int)
    (ns : String) (ops : List Bson)
    (hop : get_str d "op" = .ok "c")
    (hh : get_i64 d "h" = .ok hid) (hts : get_datetime d "ts" = .ok ts)
    (hns : get_str d "ns" = .ok ns) (ho : get_document d "o" = .ok o)
    (hga : getVal o "applyOps" = some (.array ops)) :
    ((∃ b ∈ ops, ∀ dd, b ≠ .document dd) →
      ∀ op, Operation.new d ≠ .ok op) ∧
    (∀ pre b rest, ops = pre ++ b :: rest → (∀ dd, b ≠ .document dd) →
      (∀ x ∈ pre, ∃ opx, Operation.from_bson x = .ok opx) →
      Operation.new d = .error .InvalidOperation) := by
  have hga' := get_array_of_getVal o "applyOps" ops hga
  have hnew : Operation.new d =
      match Operation.from_bson_list ops with
      | .ok l => .ok (.ApplyOps hid ts ns l)
      | .error e => .error e := by
    rw [Operation.new_command d hop,
      Operation.from_command_applyOps d o hid ts ns ops hh hts hns ho hga']
  constructor
  · rintro ⟨b, hb, hnd⟩ op hok
    rw [hnew] at hok
    rcases hfl : Operation.from_bson_list ops with e | l
    · rw [hfl] at hok
      simp at hok
    · obtain ⟨dd, hdd⟩ := Operation.from_bson_list_ok_all_doc ops l hfl b hb
      exact hnd dd hdd
  · intro pre b rest hsplit hnd hpre
    have hb : Operation.from_bson b = .error .InvalidOperation :=
      Operation.from_bson_nondoc b hnd
    rw [hnew, hsplit,
      Operation.from_bson_list_first_error pre b rest _ hpre hb]

/-- C5 witness: for `mixedBatchDoc`, whose `applyOps` batch is one valid
insert record followed by the non-document `5`, the whole decode fails
with `InvalidOperation`. -/
theorem claim_C5_witness :
    Operation.new mixedBatchDoc = .error .InvalidOperation :=
  (claim_C5_nondoc_batch_entry mixedBatchDoc
      [("applyOps", Bson.array [Bson.document applyOpsEntry, Bson.int32 5])]
      1 0 "a.$cmd" [Bson.document applyOpsEntry, Bson.int32 5]
      rfl rfl rfl rfl rfl rfl).2
    [Bson.document applyOpsEntry] (Bson.int32 5) [] rfl
    (fun dd h => by cases h)
    (fun x hx => by
      have hx' : x = Bson.document applyOpsEntry := by simpa using hx
      subst hx'
      exact ⟨applyOpsEntryOp, by
        rw [Operation.from_bson_doc, new_applyOpsEntry]⟩)

/-- C6: the filter `subscribe` hands to the oplog reader binds the key
`"ns"` to `"db.coll"`; a caller-supplied `"ns"` entry is overridden, every
other caller-supplied key keeps its value, and with no caller filter the
result is exactly `{"ns": "db.coll"}`. -/
theorem claim_C6_namespace_filter (db coll : String) (f : BDoc)
    (k : String) :
    getVal (subscribeFilter db coll (some f)) "ns"
      = some (.str (db ++ "." ++ coll)) ∧
    (k ≠ "ns" → getVal (subscribeFilter db coll (some f)) k = getVal f k) ∧
    subscribeFilter db coll none = [("ns", .str (db ++ "." ++ coll))] := by
  refine ⟨?_, ?_, rfl⟩
  · simpa [subscribeFilter] using
      getVal_insertVal_self f "ns" (.str (db ++ "." ++ coll))
  · intro hk
    simpa [subscribeFilter] using
      getVal_insertVal_other f "ns" k (.str (db ++ "." ++ coll)) hk

/-- C6 witness: with caller filter `{"x": 1, "ns": "old"}` and namespace
`"foo" . "bar"`, the built filter binds `"ns"` to the injected namespace
(overriding `"old"`) and leaves the other key `"x"` unchanged. -/
theorem claim_C6_witness :
    getVal (subscribeFilter "foo" "bar"
        (some [("x", Bson.int32 1), ("ns", Bson.str "old")])) "ns"
      = some (Bson.str ("foo" ++ "." ++ "bar")) ∧
    getVal (subscribeFilter "foo" "bar"
        (some [("x", Bson.int32 1), ("ns", Bson.str "old")])) "x"
      = getVal [("x", Bson.int32 1), ("ns", Bson.str "old")] "x" :=
  ⟨(claim_C6_namespace_filter "foo" "bar"
      [("x", Bson.int32 1), ("ns", Bson.str "old")] "x").1,
   (claim_C6_namespace_filter "foo" "bar"
      [("x", Bson.int32 1), ("ns", Bson.str "old")] "x").2.1 (by decide)⟩

/-- C7: `Operation::new` is deterministic and pure — it is a function of
the input document alone, so two evaluations on equal documents produce
structurally equal results (equal operations on success, the same error on
failure). -/
theorem claim_C7_decode_deterministic (d1 d2 : BDoc) (h : d1 = d2) :
    Operation.new d1 = Operation.new d2 := by
  rw [h]

/-- C7 witness: the determinism theorem applied at the crate's legacy
update record. -/
theorem claim_C7_witness :
    updateDocEx = updateDocEx ∧
      Operation.new updateDocEx = Operation.new updateDocEx :=
  ⟨rfl, claim_C7_decode_deterministic updateDocEx updateDocEx rfl⟩

/-- C9: `Operation::new` terminates on every finite BSON document: the
`applyOps` recursion descends only into strictly smaller sub-values, so
running the same algorithm with fuel `2 * sizeOf d + 1` — with no other
depth bound anywhere — already reaches the unbounded decoder's result. -/
theorem claim_C9_decode_terminates (d : BDoc) :
    Operation.newF (2 * sizeOf d + 1) d = some (Operation.new d) :=
  (Operation.fuel_adequate (2 * sizeOf d + 1)).1 d (le_refl _)

/-- C10: on every input document `Operation::new` returns either a decoded
operation or one of the three decode errors MissingField, UnknownOperation,
InvalidOperation; the `Database` variant never originates in the decoder. -/
theorem claim_C10_error_taxonomy (d : BDoc) :
    (∃ op, Operation.new d = .ok op) ∨
    (∃ e, Operation.new d = .error (.MissingField e)) ∨
    (∃ s, Operation.new d = .error (.UnknownOperation s)) ∨
    Operation.new d = .error .InvalidOperation := by
  have hnd := (Operation.noDatabase (2 * sizeOf d + 1)).1 d (le_refl _)
  rcases h : Operation.new d with e | op
  · rcases e with s | e | s | _
    · exact absurd h (hnd s)
    · exact Or.inr (Or.inl ⟨e, rfl⟩)
    · exact Or.inr (Or.inr (Or.inl ⟨s, rfl⟩))
    · exact Or.inr (Or.inr (Or.inr rfl))
  · exact Or.inl ⟨op, rfl⟩
